import Mathlib

/-!
Shallow embedding of the chess-melee solver (`src/solver.ts`).

Board positions are algebraic labels, modelled as the list of characters of
the TypeScript string (e.g. "e4" becomes `['e', '4']`).  Mutation of the
piece list is modelled by explicit state passing: `applyCapture` returns the
updated board together with its boolean result, and the recursive search
returns the solutions and the dead-end count accumulated in its subtree,
mirroring the global counters of the script.
-/

namespace ChessMelee

/-- A board square label: the characters of the TypeScript position string. -/
abbrev Pos := List Char

inductive PieceType where
  | Bishop | King | Knight | Pawn | Queen | Rook
deriving DecidableEq, Repr

inductive Color where
  | White | Black
deriving DecidableEq, Repr

inductive MoveType where
  | Jump | Slide
deriving DecidableEq, Repr

structure Move where
  directionX : Int
  directionY : Int
  type : MoveType
deriving DecidableEq, Repr

structure Piece where
  type : PieceType
  color : Color
  position : Pos
deriving DecidableEq, Repr

structure Capture where
  attacker : Piece
  target : Piece
deriving DecidableEq, Repr

/-- `start.charCodeAt(0) - 96`: the file coordinate of a label. -/
def decodeX (s : Pos) : Int := ((s.getD 0 default).toNat : Int) - 96

/-- `parseInt(start.charAt(1))`: the rank coordinate of a label. -/
def decodeY (s : Pos) : Int := ((s.getD 1 default).toNat : Int) - 48

/-- `String.fromCharCode(x + 96)` followed by the decimal digit of `y`
(for the reachable range `1 ≤ y ≤ 8` the digit is the char `y + 48`). -/
def encodeLabel (x y : Int) : Pos :=
  [Char.ofNat (x + 96).toNat, Char.ofNat (y + 48).toNat]

/-- `calculatePosition` from `src/solver.ts`: apply a move direction
`multiplier` times to a start label; `none` when out of board. -/
def calculatePosition (start : Pos) (move : Move) (multiplier : Int) : Option Pos :=
  let x : Int := decodeX start + multiplier * move.directionX
  let y : Int := decodeY start + multiplier * move.directionY
  if x < 1 ∨ x > 8 ∨ y < 1 ∨ y > 8 then
    none
  else
    some (encodeLabel x y)

/-- The move table bound at construction of a `Piece`, keyed by type and
color exactly as in the constructor of `class Piece`. -/
def moveOptionsFor (type : PieceType) (color : Color) : List Move :=
  if type = PieceType.Bishop then
    [ ⟨-1, -1, MoveType.Slide⟩, ⟨-1, 1, MoveType.Slide⟩,
      ⟨1, -1, MoveType.Slide⟩, ⟨1, 1, MoveType.Slide⟩ ]
  else if type = PieceType.King then
    [ ⟨-1, -1, MoveType.Jump⟩, ⟨-1, 0, MoveType.Jump⟩, ⟨-1, 1, MoveType.Jump⟩,
      ⟨0, -1, MoveType.Jump⟩, ⟨0, 1, MoveType.Jump⟩,
      ⟨1, -1, MoveType.Jump⟩, ⟨1, 0, MoveType.Jump⟩, ⟨1, 1, MoveType.Jump⟩ ]
  else if type = PieceType.Knight then
    [ ⟨-2, -1, MoveType.Jump⟩, ⟨-2, 1, MoveType.Jump⟩,
      ⟨-1, -2, MoveType.Jump⟩, ⟨-1, 2, MoveType.Jump⟩,
      ⟨1, -2, MoveType.Jump⟩, ⟨1, 2, MoveType.Jump⟩,
      ⟨2, -1, MoveType.Jump⟩, ⟨2, 1, MoveType.Jump⟩ ]
  else if type = PieceType.Pawn ∧ color = Color.White then
    [ ⟨-1, 1, MoveType.Jump⟩, ⟨1, 1, MoveType.Jump⟩ ]
  else if type = PieceType.Pawn ∧ color = Color.Black then
    [ ⟨-1, -1, MoveType.Jump⟩, ⟨1, -1, MoveType.Jump⟩ ]
  else if type = PieceType.Queen then
    [ ⟨-1, -1, MoveType.Slide⟩, ⟨-1, 1, MoveType.Slide⟩,
      ⟨1, -1, MoveType.Slide⟩, ⟨1, 1, MoveType.Slide⟩,
      ⟨-1, 0, MoveType.Slide⟩, ⟨0, -1, MoveType.Slide⟩,
      ⟨0, 1, MoveType.Slide⟩, ⟨1, 0, MoveType.Slide⟩ ]
  else if type = PieceType.Rook then
    [ ⟨-1, 0, MoveType.Slide⟩, ⟨0, -1, MoveType.Slide⟩,
      ⟨0, 1, MoveType.Slide⟩, ⟨1, 0, MoveType.Slide⟩ ]
  else
    []

def Piece.moveOptions (p : Piece) : List Move := moveOptionsFor p.type p.color

/-- `Piece.clone`: a value copy. -/
def Piece.clone (p : Piece) : Piece := ⟨p.type, p.color, p.position⟩

structure Board where
  pieces : List Piece
deriving DecidableEq, Repr

/-- `Board.findPiece`: the `forEach` loop overwrites `result` on every
position match, so the piece assigned last wins. -/
def Board.findPiece (b : Board) (position : Pos) : Option Piece :=
  b.pieces.foldl
    (fun result piece => if piece.position = position then some piece else result)
    none

/-- `Board.clone`: element-wise duplication of the piece list. -/
def Board.clone (b : Board) : Board := ⟨b.pieces.map Piece.clone⟩

/-- The `for` loop of `applyCapture` that splices out the first piece found
at the given position (the `break` stops after the first match). -/
def removeFirstAt (pieces : List Piece) (pos : Pos) : List Piece :=
  match pieces with
  | [] => []
  | p :: rest => if p.position = pos then rest else p :: removeFirstAt rest pos

/-- `Board.applyCapture`: splice out the first piece at the target's
position, then overwrite the position of every piece standing at the
attacker's position, and report whether the count dropped by exactly one. -/
def Board.applyCapture (b : Board) (capture : Capture) : Board × Bool :=
  let initialAmount := b.pieces.length
  let afterRemove := removeFirstAt b.pieces capture.target.position
  let afterMove := afterRemove.map (fun piece =>
    if piece.position = capture.attacker.position then
      { piece with position := capture.target.position }
    else piece)
  (⟨afterMove⟩, decide ((afterMove.length : Int) = (initialAmount : Int) - 1))

/-- The `else if ( move.type === MoveType.Slide )` loop of
`getPossibleCaptures`: steps `i, i+1, ...` with `fuel` iterations left
(the source runs `i = 1..7`, i.e. `slideFrom … 1 7`).  An off-board or
empty square lets the loop continue; the first occupied square stops it,
yielding a capture exactly when the colors differ. -/
def slideFrom (b : Board) (self : Piece) (move : Move) (i : Nat) (fuel : Nat) :
    List Capture :=
  match fuel with
  | 0 => []
  | Nat.succ fuel =>
    match calculatePosition self.position move (i : Int) with
    | none => slideFrom b self move (i + 1) fuel
    | some newPosition =>
      match b.findPiece newPosition with
      | none => slideFrom b self move (i + 1) fuel
      | some target =>
        if target.color ≠ self.color then [⟨self, target⟩] else []

/-- The body of the `moveOptions.forEach` of `getPossibleCaptures`:
the captures contributed by one move table entry. -/
def capturesForMove (b : Board) (self : Piece) (move : Move) : List Capture :=
  match move.type with
  | MoveType.Jump =>
    match calculatePosition self.position move 1 with
    | none => []
    | some newPosition =>
      match b.findPiece newPosition with
      | none => []
      | some target =>
        if target.color ≠ self.color then [⟨self, target⟩] else []
  | MoveType.Slide => slideFrom b self move 1 7

/-- `Piece.getPossibleCaptures`: concatenate the captures pushed for each
move table entry, in table order. -/
def Piece.getPossibleCaptures (self : Piece) (b : Board) : List Capture :=
  self.moveOptions.flatMap (capturesForMove b self)

/-- The captures attempted at one node of `solveRecursive`: the nested
`pieces.forEach` / `captures.forEach` loops visit, in order, the captures
of every piece of the turn color; `movePossible` ends up true exactly when
this list is nonempty. -/
def legalCaptures (b : Board) (turnColor : Color) : List Capture :=
  (b.pieces.filter (fun p => p.color = turnColor)).flatMap
    (fun p => p.getPossibleCaptures b)

/-- The ternary `( turnColor === Color.White ) ? Color.Black : Color.White`. -/
def nextColor (turnColor : Color) : Color :=
  if turnColor = Color.White then Color.Black else Color.White

/-- The effect of one call tree on the global counters of the script:
the histories printed at `Solved` (each adds one to `solutionsCount`) and
the number of `deadEndCount` increments. -/
structure SearchResult where
  solutions : List (List Capture)
  deadEnds : Nat
deriving DecidableEq, Repr

/-- `Board.solveRecursive`, with the call-stack depth made explicit as
`fuel` (each nested call consumes one unit; `solve` supplies enough, see
the fuel-independence theorem).  The sequential `+=` accumulation of the
two global counters over the nested `forEach` loops is the concatenation,
respectively the sum, over the per-capture recursive results. -/
def solveRecursive (fuel : Nat) (b : Board) (history : List Capture)
    (turnColor : Color) : SearchResult :=
  match fuel with
  | 0 => ⟨[], 0⟩
  | Nat.succ fuel =>
    if b.pieces.length = 1 then
      ⟨[history], 0⟩
    else
      let captures := legalCaptures b turnColor
      let results := captures.map (fun capture =>
        let r := (b.clone).applyCapture capture
        if r.2 then
          solveRecursive fuel r.1 (history ++ [capture]) (nextColor turnColor)
        else ⟨[], 0⟩)
      if captures.isEmpty then
        ⟨(results.map SearchResult.solutions).flatten,
         (results.map SearchResult.deadEnds).sum + 1⟩
      else
        ⟨(results.map SearchResult.solutions).flatten,
         (results.map SearchResult.deadEnds).sum⟩

/-- `Board.solve`: start the recursion with an empty history and White to
move.  `pieces.length + 1` units of stack depth always suffice. -/
def Board.solve (b : Board) : SearchResult :=
  solveRecursive (b.pieces.length + 1) b [] Color.White

/-- A well-formed algebraic label: file letter a..h, rank digit 1..8. -/
def validLabel : Pos → Bool
  | [c1, c2] =>
    decide (97 ≤ c1.toNat) && decide (c1.toNat ≤ 104) &&
    decide (49 ≤ c2.toNat) && decide (c2.toNat ≤ 56)
  | _ => false

/-- The occupant, if any, met at step `i` of a slide scan. -/
def hitAt (b : Board) (pos : Pos) (move : Move) (i : Nat) : Option Piece :=
  (calculatePosition pos move (i : Int)).bind (fun q => b.findPiece q)

/-- Attacker colors of a capture list alternate, starting with `c`. -/
def alternatesFrom (c : Color) : List Capture → Bool
  | [] => true
  | cap :: rest => decide (cap.attacker.color = c) && alternatesFrom (nextColor c) rest

/-! ### Coordinate codec lemmas -/

lemma validLabel_cases {s : Pos} (h : validLabel s = true) :
    ∃ c1 c2, s = [c1, c2] ∧ 97 ≤ c1.toNat ∧ c1.toNat ≤ 104 ∧
      49 ≤ c2.toNat ∧ c2.toNat ≤ 56 := by
  match s with
  | [] => simp [validLabel] at h
  | [c1] => simp [validLabel] at h
  | c1 :: c2 :: c3 :: rest => simp [validLabel] at h
  | [c1, c2] =>
    simp [validLabel] at h
    exact ⟨c1, c2, rfl, h.1.1.1, h.1.1.2, h.1.2, h.2⟩

lemma decode_bounds {s : Pos} (h : validLabel s = true) :
    1 ≤ decodeX s ∧ decodeX s ≤ 8 ∧ 1 ≤ decodeY s ∧ decodeY s ≤ 8 := by
  obtain ⟨c1, c2, rfl, h1, h2, h3, h4⟩ := validLabel_cases h
  simp only [decodeX, decodeY, List.getD_cons_zero, List.getD_cons_succ]
  omega

lemma encode_decode {s : Pos} (h : validLabel s = true) :
    encodeLabel (decodeX s) (decodeY s) = s := by
  obtain ⟨c1, c2, rfl, h1, h2, h3, h4⟩ := validLabel_cases h
  simp only [encodeLabel, decodeX, decodeY, List.getD_cons_zero, List.getD_cons_succ]
  have e1 : ((c1.toNat : Int) - 96 + 96) = (c1.toNat : Int) := by ring
  have e2 : ((c2.toNat : Int) - 48 + 48) = (c2.toNat : Int) := by ring
  rw [e1, e2, Int.toNat_natCast, Int.toNat_natCast, Char.ofNat_toNat, Char.ofNat_toNat]

lemma decode_encode {x y : Int} (hx1 : 1 ≤ x) (hx8 : x ≤ 8) (hy1 : 1 ≤ y)
    (hy8 : y ≤ 8) :
    decodeX (encodeLabel x y) = x ∧ decodeY (encodeLabel x y) = y ∧
      validLabel (encodeLabel x y) = true := by
  interval_cases x <;> interval_cases y <;> exact ⟨by decide, by decide, by decide⟩

lemma encodeLabel_inj {x y x' y' : Int} (hx1 : 1 ≤ x) (hx8 : x ≤ 8) (hy1 : 1 ≤ y)
    (hy8 : y ≤ 8) (hx1' : 1 ≤ x') (hx8' : x' ≤ 8) (hy1' : 1 ≤ y') (hy8' : y' ≤ 8)
    (h : encodeLabel x y = encodeLabel x' y') : x = x' ∧ y = y' := by
  have d1 := decode_encode hx1 hx8 hy1 hy8
  have d2 := decode_encode hx1' hx8' hy1' hy8'
  rw [h] at d1
  exact ⟨d1.1.symm.trans d2.1, d1.2.1.symm.trans d2.2.1⟩

/-- C8: for every valid algebraic label and every move direction, applying
the offset with step count 0 returns the label itself, and re-encoding the
decoded coordinate pair of a valid label reproduces the label exactly. -/
theorem c8_zero_offset_roundtrip (s : Pos) (hs : validLabel s = true) :
    (∀ move : Move, calculatePosition s move 0 = some s) ∧
    encodeLabel (decodeX s) (decodeY s) = s := by
  have henc := encode_decode hs
  have hb := decode_bounds hs
  refine ⟨fun move => ?_, henc⟩
  simp only [calculatePosition, zero_mul, add_zero]
  rw [if_neg (by omega), henc]

/-- Witness for C8 at the concrete label e4. -/
theorem c8_zero_offset_roundtrip_witness :
    validLabel ['e', '4'] = true ∧
    calculatePosition ['e', '4'] ⟨1, 1, MoveType.Slide⟩ 0 = some ['e', '4'] :=
  ⟨by decide, (c8_zero_offset_roundtrip ['e', '4'] (by decide)).1 ⟨1, 1, MoveType.Slide⟩⟩

/-! ### findPiece lemmas -/

lemma foldl_find_step (l : List Piece) (pos : Pos) (acc : Option Piece) :
    l.foldl (fun r p => if p.position = pos then some p else r) acc
      = (l.reverse.find? (fun p => decide (p.position = pos))).or acc := by
  induction l generalizing acc with
  | nil => simp
  | cons p l ih =>
    simp only [List.foldl_cons, List.reverse_cons, List.find?_append, ih]
    cases hfind : l.reverse.find? (fun p => decide (p.position = pos)) with
    | some x => simp [Option.or]
    | none =>
      by_cases hp : p.position = pos <;> simp [hp, Option.or]

lemma findPiece_eq_find_reverse (b : Board) (pos : Pos) :
    b.findPiece pos = b.pieces.reverse.find? (fun p => decide (p.position = pos)) := by
  rw [Board.findPiece, foldl_find_step, Option.or_none]

lemma find_of_unique {l : List Piece} {x : Piece} {P : Piece → Bool}
    (hmem : x ∈ l) (hx : P x = true) (huniq : ∀ y ∈ l, P y = true → y = x) :
    l.find? P = some x := by
  induction l with
  | nil => cases hmem
  | cons a l ih =>
    by_cases ha : P a = true
    · have hax : a = x := huniq a (List.mem_cons_self a l) ha
      subst hax
      simp [List.find?_cons, ha, hx]
    · have hax : x ≠ a := fun h => ha (h ▸ hx)
      have hmem' : x ∈ l := by
        cases List.mem_cons.mp hmem with
        | inl h => exact absurd h.symm hax.symm
        | inr h => exact h
      have : l.find? P = some x :=
        ih hmem' (fun y hy hPy => huniq y (List.mem_cons_of_mem a hy) hPy)
      simp [List.find?_cons, ha, this]

/-- If exactly one piece of the board stands at `pos`, `findPiece` returns it. -/
lemma findPiece_of_unique {b : Board} {x : Piece} {pos : Pos}
    (hmem : x ∈ b.pieces) (hx : x.position = pos)
    (huniq : ∀ y ∈ b.pieces, y.position = pos → y = x) :
    b.findPiece pos = some x := by
  rw [findPiece_eq_find_reverse]
  exact find_of_unique (List.mem_reverse.mpr hmem) (by simp [hx])
    (fun y hy hPy => huniq y (List.mem_reverse.mp hy) (by simpa using hPy))

lemma findPiece_eq_none {b : Board} {pos : Pos}
    (h : ∀ y ∈ b.pieces, y.position ≠ pos) : b.findPiece pos = none := by
  rw [findPiece_eq_find_reverse, List.find?_eq_none]
  intro y hy
  simpa using h y (List.mem_reverse.mp hy)

/-- A duplicated-position board used to exercise `findPiece`'s tie behavior. -/
def dupBoard : Board :=
  ⟨[⟨PieceType.Bishop, Color.White, ['a', '1']⟩,
    ⟨PieceType.Knight, Color.Black, ['a', '1']⟩]⟩

/-- C2 counterexample: on a board whose two pieces share the square a1, the
piece occurring first in list order among those at a1 is the white bishop,
yet `findPiece` returns the black knight — not the first occurrence. -/
theorem c2_counterexample_first_loses :
    (dupBoard.pieces.filter (fun p => decide (p.position = ['a', '1']))).head? =
      some ⟨PieceType.Bishop, Color.White, ['a', '1']⟩ ∧
    dupBoard.findPiece ['a', '1'] =
      some ⟨PieceType.Knight, Color.Black, ['a', '1']⟩ ∧
    (⟨PieceType.Knight, Color.Black, ['a', '1']⟩ : Piece) ≠
      ⟨PieceType.Bishop, Color.White, ['a', '1']⟩ := by
  refine ⟨by decide, ?_, by decide⟩
  rw [findPiece_eq_find_reverse]
  decide

/-- C2 (amended): when two or more pieces of the list share a position
label, `findPiece` of that label returns the piece that occurs last in the
list order among those at that position (the first match of the reversed
list). -/
theorem c2_findPiece_last_wins (b : Board) (pos : Pos)
    (_hdup : 2 ≤ (b.pieces.filter (fun p => decide (p.position = pos))).length) :
    b.findPiece pos = b.pieces.reverse.find? (fun p => decide (p.position = pos)) :=
  findPiece_eq_find_reverse b pos

/-- Witness for the amended C2 on the duplicated-position board. -/
theorem c2_findPiece_last_wins_witness :
    2 ≤ (dupBoard.pieces.filter (fun p => decide (p.position = ['a', '1']))).length ∧
    dupBoard.findPiece ['a', '1'] =
      dupBoard.pieces.reverse.find? (fun p => decide (p.position = ['a', '1'])) :=
  ⟨by decide, c2_findPiece_last_wins dupBoard ['a', '1'] (by decide)⟩

/-! ### applyCapture lemmas -/

lemma removeFirstAt_of_absent {l : List Piece} {pos : Pos}
    (h : ∀ p ∈ l, p.position ≠ pos) : removeFirstAt l pos = l := by
  induction l with
  | nil => rfl
  | cons p l ih =>
    rw [removeFirstAt, if_neg (h p (List.mem_cons_self p l))]
    rw [ih (fun q hq => h q (List.mem_cons_of_mem p hq))]

lemma removeFirstAt_split {l1 l2 : List Piece} {t : Piece} {pos : Pos}
    (ht : t.position = pos) (h1 : ∀ p ∈ l1, p.position ≠ pos) :
    removeFirstAt (l1 ++ t :: l2) pos = l1 ++ l2 := by
  induction l1 with
  | nil => simp [removeFirstAt, ht]
  | cons p l1 ih =>
    rw [List.cons_append, removeFirstAt, if_neg (h1 p (List.mem_cons_self p l1)),
      ih (fun q hq => h1 q (List.mem_cons_of_mem p hq)), List.cons_append]

lemma countP_eq_one_of_unique {l : List Piece} {x : Piece} {Q : Piece → Bool}
    (hnd : l.Nodup) (hx : x ∈ l) (hQ : Q x = true)
    (huniq : ∀ y ∈ l, Q y = true → y = x) : l.countP Q = 1 := by
  induction l with
  | nil => cases hx
  | cons a l ih =>
    by_cases ha : Q a = true
    · have hax : a = x := huniq a (List.mem_cons_self a l) ha
      subst hax
      rw [List.countP_cons, if_pos ha]
      have hzero : l.countP Q = 0 := by
        rw [List.countP_eq_zero]
        intro y hy hQy
        exact absurd (huniq y (List.mem_cons_of_mem a hy) hQy ▸ hy)
          (List.nodup_cons.mp hnd).1
      omega
    · have hax : x ≠ a := fun h => ha (h ▸ hQ)
      have hx' : x ∈ l := by
        cases List.mem_cons.mp hx with
        | inl h => exact absurd h hax
        | inr h => exact h
      rw [List.countP_cons, if_neg ha]
      have := ih (List.nodup_cons.mp hnd).2 hx'
        (fun y hy hQy => huniq y (List.mem_cons_of_mem a hy) hQy)
      omega

/-- C1: on a board with pairwise-distinct positions containing both the
attacker and the target at distinct positions, `applyCapture` returns true,
removes exactly one piece, leaves at the target's former square exactly the
relocated attacker, and removes one piece of the target's kind and color;
in general `applyCapture` returns true iff the count dropped by one. -/
theorem c1_applyCapture_success (b : Board) (c : Capture)
    (hnd : (b.pieces.map Piece.position).Nodup)
    (ha : c.attacker ∈ b.pieces) (ht : c.target ∈ b.pieces)
    (hne : c.attacker.position ≠ c.target.position) :
    (b.applyCapture c).2 = true ∧
    (b.applyCapture c).1.pieces.length + 1 = b.pieces.length ∧
    (b.applyCapture c).1.findPiece c.target.position
      = some ⟨c.attacker.type, c.attacker.color, c.target.position⟩ ∧
    (b.applyCapture c).1.pieces.countP
      (fun p => decide (p.position = c.target.position)) = 1 ∧
    (∀ ty co, (b.applyCapture c).1.pieces.countP
        (fun p => decide (p.type = ty ∧ p.color = co))
      = b.pieces.countP (fun p => decide (p.type = ty ∧ p.color = co))
        - (if c.target.type = ty ∧ c.target.color = co then 1 else 0)) ∧
    (∀ (b' : Board) (c' : Capture), (b'.applyCapture c').2 = true ↔
      ((b'.applyCapture c').1.pieces.length : Int) = (b'.pieces.length : Int) - 1) := by
  obtain ⟨l1, l2, hsplit⟩ := List.append_of_mem ht
  have hinj : ∀ p ∈ b.pieces, ∀ q ∈ b.pieces, p.position = q.position → p = q :=
    fun p hp q hq h => List.inj_on_of_nodup_map hnd hp hq h
  have hndl : b.pieces.Nodup := List.Nodup.of_map Piece.position hnd
  have hnd' : (l1.map Piece.position ++
      (c.target.position :: l2.map Piece.position)).Nodup := by
    have := hnd
    rw [hsplit] at this
    simpa using this
  have hl1 : ∀ p ∈ l1, p.position ≠ c.target.position := by
    intro p hp heq
    exact (List.nodup_append.mp hnd').2.2
      (List.mem_map_of_mem Piece.position hp)
      (heq ▸ List.mem_cons_self c.target.position (l2.map Piece.position))
  have hl2 : ∀ p ∈ l2, p.position ≠ c.target.position := by
    intro p hp heq
    exact (List.nodup_cons.mp (List.nodup_append.mp hnd').2.1).1
      (heq ▸ List.mem_map_of_mem Piece.position hp)
  have hrem : removeFirstAt b.pieces c.target.position = l1 ++ l2 := by
    rw [hsplit]
    exact removeFirstAt_split rfl hl1
  have hatk : c.attacker ∈ l1 ++ l2 := by
    have hat : c.attacker ≠ c.target := fun h => hne (h ▸ rfl)
    have := hsplit ▸ ha
    rcases List.mem_append.mp this with h | h
    · exact List.mem_append_left _ h
    · rcases List.mem_cons.mp h with h | h
      · exact absurd h hat
      · exact List.mem_append_right _ h
  have hrl : ∀ p ∈ l1 ++ l2, p ∈ b.pieces := by
    intro p hp
    rw [hsplit]
    rcases List.mem_append.mp hp with h | h
    · exact List.mem_append_left _ h
    · exact List.mem_append_right _ (List.mem_cons_of_mem _ h)
  have hlen : b.pieces.length = (l1 ++ l2).length + 1 := by
    rw [hsplit]; simp; omega
  have hres : (b.applyCapture c).1.pieces = (l1 ++ l2).map (fun piece =>
      if piece.position = c.attacker.position then
        { piece with position := c.target.position }
      else piece) := by
    simp only [Board.applyCapture, Board.clone]
    rw [hrem]
  have hlen2 : (b.applyCapture c).1.pieces.length + 1 = b.pieces.length := by
    rw [hres, List.length_map, hlen]
  have hbool : (b.applyCapture c).2 = true := by
    simp only [Board.applyCapture]
    rw [hrem]
    simp only [List.length_map]
    rw [decide_eq_true_eq]
    omega
  have hmoved : ∀ y ∈ (b.applyCapture c).1.pieces,
      y.position = c.target.position →
      y = ⟨c.attacker.type, c.attacker.color, c.target.position⟩ := by
    intro y hy hpos
    rw [hres] at hy
    obtain ⟨p, hp, hmap⟩ := List.mem_map.mp hy
    by_cases hpa : p.position = c.attacker.position
    · have : p = c.attacker := hinj p (hrl p hp) c.attacker ha hpa
      subst this
      rw [if_pos hpa] at hmap
      exact hmap.symm
    · rw [if_neg hpa] at hmap
      subst hmap
      rcases List.mem_append.mp hp with h | h
      · exact absurd hpos (hl1 p h)
      · exact absurd hpos (hl2 p h)
  have hmem : (⟨c.attacker.type, c.attacker.color, c.target.position⟩ : Piece)
      ∈ (b.applyCapture c).1.pieces := by
    rw [hres]
    refine List.mem_map.mpr ⟨c.attacker, hatk, ?_⟩
    rw [if_pos rfl]
  refine ⟨hbool, hlen2, ?_, ?_, ?_, ?_⟩
  · exact findPiece_of_unique hmem rfl hmoved
  · have hndres : (b.applyCapture c).1.pieces.Nodup := by
      rw [hres]
      refine List.Nodup.map_on ?_ ?_
      · intro p hp q hq heq
        by_cases hpa : p.position = c.attacker.position <;>
          by_cases hqa : q.position = c.attacker.position
        · exact hinj p (hrl p hp) q (hrl q hq) (hpa.trans hqa.symm)
        · exfalso
          rw [if_pos hpa, if_neg hqa] at heq
          have : q.position = c.target.position := by
            have := congrArg Piece.position heq
            simpa using this.symm
          rcases List.mem_append.mp hq with h | h
          · exact hl1 q h this
          · exact hl2 q h this
        · exfalso
          rw [if_neg hpa, if_pos hqa] at heq
          have : p.position = c.target.position := by
            have := congrArg Piece.position heq
            simpa using this
          rcases List.mem_append.mp hp with h | h
          · exact hl1 p h this
          · exact hl2 p h this
        · rwa [if_neg hpa, if_neg hqa] at heq
      · have hsub : (l1 ++ l2).Sublist b.pieces := by
          rw [hsplit]
          exact List.Sublist.append (List.Sublist.refl l1)
            (List.sublist_cons_self c.target l2)
        exact hsub.nodup hndl
    exact countP_eq_one_of_unique hndres hmem (by simp)
      (fun y hy hQy => hmoved y hy (by simpa using hQy))
  · intro ty co
    rw [hres, List.countP_map]
    have hcongr : (l1 ++ l2).countP
        ((fun p => decide (p.type = ty ∧ p.color = co)) ∘ (fun piece =>
          if piece.position = c.attacker.position then
            { piece with position := c.target.position }
          else piece))
        = (l1 ++ l2).countP (fun p => decide (p.type = ty ∧ p.color = co)) := by
      refine List.countP_congr ?_
      intro p _
      by_cases hpa : p.position = c.attacker.position <;> simp [hpa]
    rw [hcongr, hsplit]
    simp only [List.countP_append, List.countP_cons]
    by_cases hQ : c.target.type = ty ∧ c.target.color = co
    · rw [if_pos hQ]
      rw [if_pos (by simpa using hQ)]
      omega
    · rw [if_neg hQ]
      rw [if_neg (by simpa using hQ)]
      omega
  · intro b' c'
    simp only [Board.applyCapture]
    rw [decide_eq_true_eq]

/-- A concrete board with distinct positions for the C1 witness. -/
def plainBoard : Board :=
  ⟨[⟨PieceType.Rook, Color.White, ['a', '1']⟩,
    ⟨PieceType.Pawn, Color.Black, ['a', '5']⟩]⟩

/-- The capture of the black pawn by the white rook on `plainBoard`. -/
def plainCap : Capture :=
  ⟨⟨PieceType.Rook, Color.White, ['a', '1']⟩,
   ⟨PieceType.Pawn, Color.Black, ['a', '5']⟩⟩

/-- Witness for C1 on `plainBoard`. -/
theorem c1_applyCapture_success_witness :
    (plainBoard.pieces.map Piece.position).Nodup ∧
    (plainBoard.applyCapture plainCap).2 = true ∧
    (plainBoard.applyCapture plainCap).1.pieces.length + 1
      = plainBoard.pieces.length := by
  have h := c1_applyCapture_success plainBoard plainCap (by decide) (by decide)
    (by decide) (by decide)
  exact ⟨by decide, h.1, h.2.1⟩

/-- C9: when no piece stands at the capture's target position,
`applyCapture` returns false (nothing was removed), yet it still overwrites
the position of every piece standing at the attacker's position — a failed
application can leave the board mutated. -/
theorem c9_applyCapture_not_atomic (b : Board) (c : Capture)
    (hno : ∀ p ∈ b.pieces, p.position ≠ c.target.position) :
    (b.applyCapture c).2 = false ∧
    (b.applyCapture c).1.pieces = b.pieces.map (fun piece =>
      if piece.position = c.attacker.position then
        { piece with position := c.target.position }
      else piece) ∧
    (c.attacker.position ≠ c.target.position →
      ∀ q ∈ (b.applyCapture c).1.pieces, q.position ≠ c.attacker.position) ∧
    (c.attacker.position ≠ c.target.position →
      (∃ p ∈ b.pieces, p.position = c.attacker.position) →
      (b.applyCapture c).1 ≠ b) := by
  have hrem : removeFirstAt b.pieces c.target.position = b.pieces :=
    removeFirstAt_of_absent hno
  have hres : (b.applyCapture c).1.pieces = b.pieces.map (fun piece =>
      if piece.position = c.attacker.position then
        { piece with position := c.target.position }
      else piece) := by
    simp only [Board.applyCapture, Board.clone]
    rw [hrem]
  have hvac : c.attacker.position ≠ c.target.position →
      ∀ q ∈ (b.applyCapture c).1.pieces, q.position ≠ c.attacker.position := by
    intro hne q hq
    rw [hres] at hq
    obtain ⟨p, hp, hmap⟩ := List.mem_map.mp hq
    by_cases hpa : p.position = c.attacker.position
    · rw [if_pos hpa] at hmap
      subst hmap
      intro h
      simp only [] at h
      exact hne h.symm
    · rw [if_neg hpa] at hmap
      subst hmap
      exact hpa
  refine ⟨?_, hres, hvac, ?_⟩
  · simp only [Board.applyCapture]
    rw [hrem]
    simp only [List.length_map]
    rw [decide_eq_false_iff_not]
    omega
  · intro hne ⟨p, hp, hpa⟩ heq
    have : p ∈ (b.applyCapture c).1.pieces := by rw [heq]; exact hp
    exact hvac hne p this hpa

/-- A one-piece board for the C9 witness. -/
def loneRookBoard : Board := ⟨[⟨PieceType.Rook, Color.White, ['a', '1']⟩]⟩

/-- A capture whose target square b5 is empty on `loneRookBoard`. -/
def staleCap : Capture :=
  ⟨⟨PieceType.Rook, Color.White, ['a', '1']⟩,
   ⟨PieceType.Pawn, Color.Black, ['b', '5']⟩⟩

/-- Witness for C9: applying `staleCap` on `loneRookBoard` fails yet moves
the rook. -/
theorem c9_applyCapture_not_atomic_witness :
    (∀ p ∈ loneRookBoard.pieces, p.position ≠ staleCap.target.position) ∧
    (loneRookBoard.applyCapture staleCap).2 = false ∧
    (loneRookBoard.applyCapture staleCap).1 ≠ loneRookBoard := by
  have h := c9_applyCapture_not_atomic loneRookBoard staleCap (by decide)
  exact ⟨by decide, h.1, h.2.2.2 (by decide)
    ⟨⟨PieceType.Rook, Color.White, ['a', '1']⟩, by decide, rfl⟩⟩

/-! ### Slide scan lemmas -/

lemma calculatePosition_eq_none {s : Pos} {m : Move} {k : Int} :
    calculatePosition s m k = none ↔
      (decodeX s + k * m.directionX < 1 ∨ 8 < decodeX s + k * m.directionX ∨
       decodeY s + k * m.directionY < 1 ∨ 8 < decodeY s + k * m.directionY) := by
  simp only [calculatePosition]
  by_cases h : (decodeX s + k * m.directionX < 1 ∨ decodeX s + k * m.directionX > 8 ∨
      decodeY s + k * m.directionY < 1 ∨ decodeY s + k * m.directionY > 8)
  · rw [if_pos h]
    simpa using h
  · rw [if_neg h]
    push_neg at h
    simp only [reduceCtorEq, false_iff]
    omega

lemma calculatePosition_eq_some {s : Pos} {m : Move} {k : Int} {q : Pos}
    (h : calculatePosition s m k = some q) :
    q = encodeLabel (decodeX s + k * m.directionX) (decodeY s + k * m.directionY) ∧
    1 ≤ decodeX s + k * m.directionX ∧ decodeX s + k * m.directionX ≤ 8 ∧
    1 ≤ decodeY s + k * m.directionY ∧ decodeY s + k * m.directionY ≤ 8 := by
  simp only [calculatePosition] at h
  split at h
  · cases h
  · next hguard =>
    push_neg at hguard
    cases h
    exact ⟨rfl, by omega, by omega, by omega, by omega⟩

lemma slideFrom_step_offboard {b : Board} {self : Piece} {move : Move} {i : Nat}
    (fuel : Nat) (h : calculatePosition self.position move (i : Int) = none) :
    slideFrom b self move i (fuel + 1) = slideFrom b self move (i + 1) fuel := by
  rw [slideFrom, h]

lemma slideFrom_step_empty {b : Board} {self : Piece} {move : Move} {i : Nat}
    {q : Pos} (fuel : Nat)
    (h : calculatePosition self.position move (i : Int) = some q)
    (hf : b.findPiece q = none) :
    slideFrom b self move i (fuel + 1) = slideFrom b self move (i + 1) fuel := by
  rw [slideFrom, h]
  simp only [hf]

lemma slideFrom_step_occupied {b : Board} {self : Piece} {move : Move} {i : Nat}
    {q : Pos} {t : Piece} (fuel : Nat)
    (h : calculatePosition self.position move (i : Int) = some q)
    (hf : b.findPiece q = some t) :
    slideFrom b self move i (fuel + 1)
      = if t.color ≠ self.color then [⟨self, t⟩] else [] := by
  rw [slideFrom, h]
  simp only [hf]

lemma slideFrom_length_le_one (b : Board) (self : Piece) (move : Move) :
    ∀ fuel i, (slideFrom b self move i fuel).length ≤ 1 := by
  intro fuel
  induction fuel with
  | zero => intro i; simp [slideFrom]
  | succ fuel ih =>
    intro i
    cases hc : calculatePosition self.position move (i : Int) with
    | none => rw [slideFrom_step_offboard fuel hc]; exact ih (i + 1)
    | some q =>
      cases hf : b.findPiece q with
      | none => rw [slideFrom_step_empty fuel hc hf]; exact ih (i + 1)
      | some t =>
        rw [slideFrom_step_occupied fuel hc hf]
        by_cases hcol : t.color ≠ self.color <;> simp [hcol]

lemma slideFrom_of_no_hit (b : Board) (self : Piece) (move : Move) :
    ∀ (fuel i : Nat),
    (∀ j : Nat, i ≤ j → j < i + fuel → hitAt b self.position move j = none) →
    slideFrom b self move i fuel = [] := by
  intro fuel
  induction fuel with
  | zero => intro i _; rfl
  | succ fuel ih =>
    intro i hnone
    have hi : hitAt b self.position move i = none := hnone i le_rfl (by omega)
    cases hc : calculatePosition self.position move (i : Int) with
    | none =>
      rw [slideFrom_step_offboard fuel hc]
      exact ih (i + 1) (fun j h1 h2 => hnone j (by omega) (by omega))
    | some q =>
      simp only [hitAt, hc, Option.some_bind] at hi
      rw [slideFrom_step_empty fuel hc hi]
      exact ih (i + 1) (fun j h1 h2 => hnone j (by omega) (by omega))

lemma slideFrom_hit (b : Board) (self : Piece) (move : Move) (t : Piece) :
    ∀ (fuel i k : Nat), i ≤ k → k < i + fuel →
    hitAt b self.position move k = some t →
    (∀ j : Nat, i ≤ j → j < k → hitAt b self.position move j = none) →
    slideFrom b self move i fuel
      = if t.color ≠ self.color then [⟨self, t⟩] else [] := by
  intro fuel
  induction fuel with
  | zero => intro i k h1 h2 _ _; omega
  | succ fuel ih =>
    intro i k h1 h2 hk hmin
    by_cases hik : i = k
    · subst hik
      cases hc : calculatePosition self.position move (i : Int) with
      | none =>
        simp only [hitAt, hc, Option.none_bind] at hk
        cases hk
      | some q =>
        simp only [hitAt, hc, Option.some_bind] at hk
        rw [slideFrom_step_occupied fuel hc hk]
    · have hi : hitAt b self.position move i = none :=
        hmin i le_rfl (by omega)
      cases hc : calculatePosition self.position move (i : Int) with
      | none =>
        rw [slideFrom_step_offboard fuel hc]
        exact ih (i + 1) k (by omega) (by omega) hk
          (fun j ha hb => hmin j (by omega) hb)
      | some q =>
        simp only [hitAt, hc, Option.some_bind] at hi
        rw [slideFrom_step_empty fuel hc hi]
        exact ih (i + 1) k (by omega) (by omega) hk
          (fun j ha hb => hmin j (by omega) hb)

lemma capturesForMove_slide {b : Board} {self : Piece} {move : Move}
    (hslide : move.type = MoveType.Slide) :
    capturesForMove b self move = slideFrom b self move 1 7 := by
  rw [capturesForMove, hslide]

/-- C5: a Slide direction of a piece's move table yields at most one
capture; it is the capture of the piece at the first occupied square of the
ray (steps 1..7) when that piece has the opposing color, nothing when it
has the same color, and squares beyond the first occupied square never
yield a capture. -/
theorem c5_slide_at_most_one (b : Board) (self : Piece) (move : Move)
    (_hmem : move ∈ self.moveOptions) (hslide : move.type = MoveType.Slide) :
    (capturesForMove b self move).length ≤ 1 ∧
    (∀ k t, 1 ≤ k → k ≤ 7 → hitAt b self.position move k = some t →
      (∀ j, 1 ≤ j → j < k → hitAt b self.position move j = none) →
      capturesForMove b self move
        = if t.color ≠ self.color then [⟨self, t⟩] else []) ∧
    ((∀ j, 1 ≤ j → j ≤ 7 → hitAt b self.position move j = none) →
      capturesForMove b self move = []) := by
  rw [capturesForMove_slide hslide]
  refine ⟨slideFrom_length_le_one b self move 7 1, ?_, ?_⟩
  · intro k t hk1 hk7 hhit hmin
    exact slideFrom_hit b self move t 7 1 k hk1 (by omega) hhit hmin
  · intro hnone
    exact slideFrom_of_no_hit b self move 7 1 (fun j h1 h2 => hnone j h1 (by omega))

/-- A white rook on d4, a black pawn on d6: the slide up the d-file first
meets the pawn at step 2. -/
def rookBoard : Board :=
  ⟨[⟨PieceType.Rook, Color.White, ['d', '4']⟩,
    ⟨PieceType.Pawn, Color.Black, ['d', '6']⟩]⟩

/-- Witness for C5: on `rookBoard` the upward slide of the rook captures
exactly the pawn at the first occupied square of the ray. -/
theorem c5_slide_at_most_one_witness :
    (⟨0, 1, MoveType.Slide⟩ : Move)
      ∈ (⟨PieceType.Rook, Color.White, ['d', '4']⟩ : Piece).moveOptions ∧
    capturesForMove rookBoard ⟨PieceType.Rook, Color.White, ['d', '4']⟩
        ⟨0, 1, MoveType.Slide⟩
      = [⟨⟨PieceType.Rook, Color.White, ['d', '4']⟩,
          ⟨PieceType.Pawn, Color.Black, ['d', '6']⟩⟩] := by
  have h := (c5_slide_at_most_one rookBoard ⟨PieceType.Rook, Color.White, ['d', '4']⟩
    ⟨0, 1, MoveType.Slide⟩ (by decide) rfl).2.1 2
    ⟨PieceType.Pawn, Color.Black, ['d', '6']⟩ (by omega) (by omega) (by decide)
    (fun j h1 h2 => by interval_cases j; decide)
  rw [if_pos (by decide)] at h
  exact ⟨by decide, h⟩

/-! ### Stop-at-edge refinement (C10) -/

/-- A slide scan that terminates at the first off-board step, as the spec
describes the ray scan ("stop scanning at the first occupied square or the
board edge"); to be compared with the source's loop, which keeps iterating
past an off-board step. -/
def slideFromStopAtEdge (b : Board) (self : Piece) (move : Move) (i : Nat)
    (fuel : Nat) : List Capture :=
  match fuel with
  | 0 => []
  | Nat.succ fuel =>
    match calculatePosition self.position move (i : Int) with
    | none => []
    | some newPosition =>
      match b.findPiece newPosition with
      | none => slideFromStopAtEdge b self move (i + 1) fuel
      | some target =>
        if target.color ≠ self.color then [⟨self, target⟩] else []

lemma calculatePosition_none_mono {s : Pos} {m : Move}
    (hv : validLabel s = true)
    (hdx : m.directionX = -1 ∨ m.directionX = 0 ∨ m.directionX = 1)
    (hdy : m.directionY = -1 ∨ m.directionY = 0 ∨ m.directionY = 1)
    {i j : Nat} (hij : i ≤ j) (h : calculatePosition s m (i : Int) = none) :
    calculatePosition s m (j : Int) = none := by
  have hb := decode_bounds hv
  rw [calculatePosition_eq_none] at h ⊢
  have hI : (i : Int) ≤ (j : Int) := by exact_mod_cast hij
  rcases hdx with h1 | h1 | h1 <;> rcases hdy with h2 | h2 | h2 <;>
    rw [h1, h2] at h ⊢ <;> omega

lemma slideFrom_of_offboard (b : Board) (self : Piece) (move : Move) :
    ∀ (fuel i : Nat),
    (∀ j : Nat, i ≤ j → calculatePosition self.position move (j : Int) = none) →
    slideFrom b self move i fuel = [] := by
  intro fuel
  induction fuel with
  | zero => intro i _; rfl
  | succ fuel ih =>
    intro i hnone
    rw [slideFrom_step_offboard fuel (hnone i le_rfl)]
    exact ih (i + 1) (fun j hj => hnone j (by omega))

/-- C10: for a valid start square and a direction with both components in
{-1, 0, 1}, once `calculatePosition` returns the out-of-board sentinel it
does so for every larger step count, and therefore the source's slide loop,
which keeps iterating past an off-board step, produces exactly the capture
list of the scan that terminates at the first off-board step. -/
theorem c10_slide_loop_stops_at_edge (b : Board) (self : Piece) (move : Move)
    (hv : validLabel self.position = true)
    (hdx : move.directionX = -1 ∨ move.directionX = 0 ∨ move.directionX = 1)
    (hdy : move.directionY = -1 ∨ move.directionY = 0 ∨ move.directionY = 1) :
    (∀ i j : Nat, i ≤ j → calculatePosition self.position move (i : Int) = none →
      calculatePosition self.position move (j : Int) = none) ∧
    slideFrom b self move 1 7 = slideFromStopAtEdge b self move 1 7 := by
  refine ⟨fun i j hij h => calculatePosition_none_mono hv hdx hdy hij h, ?_⟩
  suffices h : ∀ (fuel i : Nat), slideFrom b self move i fuel
      = slideFromStopAtEdge b self move i fuel from h 7 1
  intro fuel
  induction fuel with
  | zero => intro i; rfl
  | succ fuel ih =>
    intro i
    cases hc : calculatePosition self.position move (i : Int) with
    | none =>
      rw [slideFrom_step_offboard fuel hc, slideFromStopAtEdge, hc]
      exact slideFrom_of_offboard b self move fuel (i + 1)
        (fun j hj => calculatePosition_none_mono hv hdx hdy
          (Nat.le_of_succ_le hj) hc)
    | some q =>
      cases hf : b.findPiece q with
      | none =>
        rw [slideFrom_step_empty fuel hc hf, slideFromStopAtEdge, hc]
        simp only [hf]
        exact ih (i + 1)
      | some t =>
        rw [slideFrom_step_occupied fuel hc hf, slideFromStopAtEdge, hc]
        simp only [hf]

/-- Witness for C10: a rook on h8 sliding right leaves the board at once. -/
theorem c10_slide_loop_stops_at_edge_witness :
    validLabel ['h', '8'] = true ∧
    slideFrom rookBoard ⟨PieceType.Rook, Color.White, ['h', '8']⟩
        ⟨1, 0, MoveType.Slide⟩ 1 7
      = slideFromStopAtEdge rookBoard ⟨PieceType.Rook, Color.White, ['h', '8']⟩
        ⟨1, 0, MoveType.Slide⟩ 1 7 :=
  ⟨by decide, (c10_slide_loop_stops_at_edge rookBoard
    ⟨PieceType.Rook, Color.White, ['h', '8']⟩ ⟨1, 0, MoveType.Slide⟩
    (by decide) (by decide) (by decide)).2⟩

/-! ### Search engine lemmas -/

/-- The result contributed by one capture at a node of `solveRecursive`:
clone, apply, and recurse only on success. -/
def childResult (fuel : Nat) (b : Board) (history : List Capture)
    (turnColor : Color) (capture : Capture) : SearchResult :=
  let r := (b.clone).applyCapture capture
  if r.2 then
    solveRecursive fuel r.1 (history ++ [capture]) (nextColor turnColor)
  else ⟨[], 0⟩

lemma solveRecursive_succ (fuel : Nat) (b : Board) (history : List Capture)
    (c : Color) :
    solveRecursive (fuel + 1) b history c =
      if b.pieces.length = 1 then ⟨[history], 0⟩
      else
        if (legalCaptures b c).isEmpty then
          ⟨(((legalCaptures b c).map (childResult fuel b history c)).map
              SearchResult.solutions).flatten,
           (((legalCaptures b c).map (childResult fuel b history c)).map
              SearchResult.deadEnds).sum + 1⟩
        else
          ⟨(((legalCaptures b c).map (childResult fuel b history c)).map
              SearchResult.solutions).flatten,
           (((legalCaptures b c).map (childResult fuel b history c)).map
              SearchResult.deadEnds).sum⟩ := rfl

lemma clone_eq (b : Board) : b.clone = b := by
  cases b with
  | mk pieces =>
    simp only [Board.clone, Piece.clone, Board.mk.injEq]
    exact List.map_id' pieces

lemma applyCapture_success_length {b : Board} {cap : Capture}
    (h : (b.applyCapture cap).2 = true) :
    (b.applyCapture cap).1.pieces.length + 1 = b.pieces.length := by
  simp only [Board.applyCapture, List.length_map, decide_eq_true_eq] at h ⊢
  omega

lemma solveRecursive_fuel_succ :
    ∀ (fuel : Nat) (b : Board) (history : List Capture) (c : Color),
    max 1 b.pieces.length ≤ fuel →
    solveRecursive fuel b history c = solveRecursive (fuel + 1) b history c := by
  intro fuel
  induction fuel with
  | zero => intro b history c hle; omega
  | succ fuel ih =>
    intro b history c hle
    rw [solveRecursive_succ, solveRecursive_succ]
    by_cases h1 : b.pieces.length = 1
    · rw [if_pos h1, if_pos h1]
    · rw [if_neg h1, if_neg h1]
      have hchild : ∀ cap ∈ legalCaptures b c,
          childResult fuel b history c cap = childResult (fuel + 1) b history c cap := by
        intro cap _
        rw [childResult, childResult]
        by_cases hs : ((b.clone).applyCapture cap).2 = true
        · rw [if_pos hs, if_pos hs]
          apply ih
          have hdec := applyCapture_success_length hs
          have hlencl : (b.clone).pieces.length = b.pieces.length := by
            rw [clone_eq]
          rw [hlencl] at hdec
          omega
        · rw [if_neg hs, if_neg hs]
      rw [List.map_congr_left hchild]

lemma solveRecursive_fuel_le (b : Board) (history : List Capture) (c : Color)
    {f1 f2 : Nat} (h12 : f1 ≤ f2) (hle : max 1 b.pieces.length ≤ f1) :
    solveRecursive f1 b history c = solveRecursive f2 b history c := by
  induction f2, h12 using Nat.le_induction with
  | base => rfl
  | succ f2 hf2 ih =>
    rw [ih, solveRecursive_fuel_succ f2 b history c (le_trans hle hf2)]

/-- C7: the recursive search terminates on every board: a successful
capture application leaves exactly one piece fewer, so any stack-depth
budget of at least `max 1 (piece count)` yields the same result — the
recursion depth below the root is bounded by the initial piece count minus
one. -/
theorem c7_search_terminates (b : Board) (history : List Capture) (c : Color) :
    (∀ (b' : Board) (cap : Capture), ((b'.clone).applyCapture cap).2 = true →
      ((b'.clone).applyCapture cap).1.pieces.length + 1 = b'.pieces.length) ∧
    (∀ f1 f2 : Nat, max 1 b.pieces.length ≤ f1 → max 1 b.pieces.length ≤ f2 →
      solveRecursive f1 b history c = solveRecursive f2 b history c) := by
  constructor
  · intro b' cap hs
    have hdec := applyCapture_success_length hs
    have hlencl : (b'.clone).pieces.length = b'.pieces.length := by rw [clone_eq]
    omega
  · intro f1 f2 h1 h2
    rcases le_total f1 f2 with h | h
    · exact solveRecursive_fuel_le b history c h h1
    · exact (solveRecursive_fuel_le b history c h h2).symm

/-- Witness for C7: on a concrete two-piece board every sufficient fuel
gives the same search result. -/
theorem c7_search_terminates_witness :
    max 1 plainBoard.pieces.length ≤ 3 ∧
    solveRecursive 3 plainBoard [] Color.White
      = solveRecursive 10 plainBoard [] Color.White :=
  ⟨by decide, (c7_search_terminates plainBoard [] Color.White).2 3 10
    (by decide) (by decide)⟩

/-- C3: at a node with more than one piece, the dead-end counter gains one
exactly when the side to move produced no legal capture; in that case the
node contributes nothing else (no recursion happens).  The condition
depends only on the generated capture list, never on whether applying a
capture succeeded. -/
theorem c3_dead_end_iff_no_capture (fuel : Nat) (b : Board)
    (history : List Capture) (c : Color) (hlen : 1 < b.pieces.length) :
    (legalCaptures b c = [] →
      solveRecursive (fuel + 1) b history c = ⟨[], 1⟩) ∧
    (solveRecursive (fuel + 1) b history c).deadEnds
      = ((legalCaptures b c).map
          (fun cap => (childResult fuel b history c cap).deadEnds)).sum
        + (if legalCaptures b c = [] then 1 else 0) := by
  have hne : b.pieces.length ≠ 1 := by omega
  rw [solveRecursive_succ, if_neg hne]
  constructor
  · intro hcap
    rw [hcap]
    simp
  · by_cases hcap : legalCaptures b c = []
    · rw [hcap]
      simp
    · have hne2 : (legalCaptures b c).isEmpty = false := by
        simpa [List.isEmpty_iff] using hcap
      simp only [hne2, Bool.false_eq_true, if_false, if_neg hcap, add_zero,
        List.map_map]
      rfl

/-- A board where White (a pawn on the last rank) has no capture at all. -/
def stuckBoard : Board :=
  ⟨[⟨PieceType.Pawn, Color.White, ['a', '8']⟩,
    ⟨PieceType.Pawn, Color.Black, ['a', '1']⟩]⟩

/-- Witness for C3: on `stuckBoard` White has no legal capture and the node
counts exactly one dead end with no recursion. -/
theorem c3_dead_end_iff_no_capture_witness :
    1 < stuckBoard.pieces.length ∧
    legalCaptures stuckBoard Color.White = [] ∧
    solveRecursive 3 stuckBoard [] Color.White = ⟨[], 1⟩ :=
  ⟨by decide, by decide,
    (c3_dead_end_iff_no_capture 2 stuckBoard [] Color.White (by decide)).1
      (by decide)⟩

/-! ### Turn alternation (C6) -/

lemma mem_slideFrom_attacker {b : Board} {self : Piece} {move : Move}
    {cap : Capture} :
    ∀ (fuel i : Nat), cap ∈ slideFrom b self move i fuel → cap.attacker = self := by
  intro fuel
  induction fuel with
  | zero => intro i h; cases h
  | succ fuel ih =>
    intro i h
    rcases hc : calculatePosition self.position move (i : Int) with _ | q
    · rw [slideFrom_step_offboard fuel hc] at h
      exact ih (i + 1) h
    · rcases hf : b.findPiece q with _ | t
      · rw [slideFrom_step_empty fuel hc hf] at h
        exact ih (i + 1) h
      · rw [slideFrom_step_occupied fuel hc hf] at h
        by_cases hcol : t.color ≠ self.color
        · rw [if_pos hcol] at h
          rcases List.mem_singleton.mp h with rfl
          rfl
        · rw [if_neg hcol] at h
          cases h

lemma capturesForMove_jump_offboard {b : Board} {self : Piece} {move : Move}
    (hty : move.type = MoveType.Jump)
    (hc : calculatePosition self.position move 1 = none) :
    capturesForMove b self move = [] := by
  rw [capturesForMove, hty, hc]

lemma capturesForMove_jump_empty {b : Board} {self : Piece} {move : Move}
    {q : Pos} (hty : move.type = MoveType.Jump)
    (hc : calculatePosition self.position move 1 = some q)
    (hf : b.findPiece q = none) :
    capturesForMove b self move = [] := by
  rw [capturesForMove, hty, hc]
  simp only [hf]

lemma capturesForMove_jump_occupied {b : Board} {self : Piece} {move : Move}
    {q : Pos} {t : Piece} (hty : move.type = MoveType.Jump)
    (hc : calculatePosition self.position move 1 = some q)
    (hf : b.findPiece q = some t) :
    capturesForMove b self move
      = if t.color ≠ self.color then [⟨self, t⟩] else [] := by
  rw [capturesForMove, hty, hc]
  simp only [hf]

lemma mem_capturesForMove_attacker {b : Board} {self : Piece} {move : Move}
    {cap : Capture} (h : cap ∈ capturesForMove b self move) :
    cap.attacker = self := by
  rcases hty : move.type with _ | _
  · rcases hc : calculatePosition self.position move 1 with _ | q
    · rw [capturesForMove_jump_offboard hty hc] at h
      cases h
    · rcases hf : b.findPiece q with _ | t
      · rw [capturesForMove_jump_empty hty hc hf] at h
        cases h
      · rw [capturesForMove_jump_occupied hty hc hf] at h
        by_cases hcol : t.color ≠ self.color
        · rw [if_pos hcol] at h
          rcases List.mem_singleton.mp h with rfl
          rfl
        · rw [if_neg hcol] at h
          cases h
  · rw [capturesForMove_slide hty] at h
    exact mem_slideFrom_attacker 7 1 h

lemma mem_legalCaptures_color {b : Board} {c : Color} {cap : Capture}
    (h : cap ∈ legalCaptures b c) : cap.attacker.color = c := by
  rw [legalCaptures] at h
  obtain ⟨p, hp, hcap⟩ := List.mem_flatMap.mp h
  obtain ⟨move, _, hcap'⟩ :=
    List.mem_flatMap.mp (by simpa [Piece.getPossibleCaptures] using hcap)
  have hatk : cap.attacker = p := mem_capturesForMove_attacker hcap'
  have hcol : p.color = c := by simpa using (List.mem_filter.mp hp).2
  rw [hatk, hcol]

lemma solveRecursive_solutions_alternate :
    ∀ (fuel : Nat) (b : Board) (history : List Capture) (c : Color)
      (sol : List Capture),
    sol ∈ (solveRecursive fuel b history c).solutions →
    ∃ ext, sol = history ++ ext ∧ alternatesFrom c ext = true := by
  intro fuel
  induction fuel with
  | zero => intro b history c sol hsol; cases hsol
  | succ fuel ih =>
    intro b history c sol hsol
    rw [solveRecursive_succ] at hsol
    by_cases h1 : b.pieces.length = 1
    · rw [if_pos h1] at hsol
      rcases List.mem_singleton.mp hsol with rfl
      exact ⟨[], by simp, rfl⟩
    · rw [if_neg h1] at hsol
      have hsol' : sol ∈ (((legalCaptures b c).map
          (childResult fuel b history c)).map SearchResult.solutions).flatten := by
        by_cases he : (legalCaptures b c).isEmpty <;> simp [he] at hsol <;>
          simpa using hsol
      obtain ⟨l, hl, hsoll⟩ := List.mem_flatten.mp hsol'
      obtain ⟨r, hr, rfl⟩ := List.mem_map.mp hl
      obtain ⟨cap, hcap, rfl⟩ := List.mem_map.mp hr
      rw [childResult] at hsoll
      by_cases hs : ((b.clone).applyCapture cap).2 = true
      · rw [if_pos hs] at hsoll
        obtain ⟨ext', hext, halt⟩ := ih _ _ _ _ hsoll
        refine ⟨cap :: ext', by rw [hext]; simp, ?_⟩
        rw [alternatesFrom]
        simp [mem_legalCaptures_color hcap, halt]
      · rw [if_neg hs] at hsoll
        cases hsoll

/-- C6: in every capture sequence recorded as a solution by the search
started with `solve`, the attacker colors strictly alternate beginning with
White. -/
theorem c6_solutions_alternate_from_white (b : Board) (sol : List Capture)
    (hsol : sol ∈ (b.solve).solutions) :
    alternatesFrom Color.White sol = true := by
  obtain ⟨ext, hext, halt⟩ :=
    solveRecursive_solutions_alternate _ b [] Color.White sol hsol
  rw [hext, List.nil_append]
  exact halt

/-- A white king next to a black pawn: the search finds one solution. -/
def kingBoard : Board :=
  ⟨[⟨PieceType.King, Color.White, ['a', '1']⟩,
    ⟨PieceType.Pawn, Color.Black, ['a', '2']⟩]⟩

/-- Witness for C6 on the one-capture solution of `kingBoard`. -/
theorem c6_solutions_alternate_from_white_witness :
    [(⟨⟨PieceType.King, Color.White, ['a', '1']⟩,
       ⟨PieceType.Pawn, Color.Black, ['a', '2']⟩⟩ : Capture)]
      ∈ (kingBoard.solve).solutions ∧
    alternatesFrom Color.White
      [⟨⟨PieceType.King, Color.White, ['a', '1']⟩,
        ⟨PieceType.Pawn, Color.Black, ['a', '2']⟩⟩] = true :=
  ⟨by decide, c6_solutions_alternate_from_white kingBoard _ (by decide)⟩

/-! ### Minimal two-piece boards (C4) -/

/-- A white king on a1 and a black knight on c2: the knight's move table
lands exactly on a1, but White to move has no capture. -/
def cexBoard : Board :=
  ⟨[⟨PieceType.King, Color.White, ['a', '1']⟩,
    ⟨PieceType.Knight, Color.Black, ['c', '2']⟩]⟩

/-- C4 counterexample: `cexBoard` has exactly two pieces of opposite colors
and one piece's move table (the black knight's) includes a direction
landing exactly on the other piece's square, yet the search yields zero
solutions and one dead end — not one solution and zero dead ends. -/
theorem c4_counterexample_black_attacker :
    (⟨-2, -1, MoveType.Jump⟩ : Move)
      ∈ (⟨PieceType.Knight, Color.Black, ['c', '2']⟩ : Piece).moveOptions ∧
    calculatePosition ['c', '2'] ⟨-2, -1, MoveType.Jump⟩ 1 = some ['a', '1'] ∧
    (cexBoard.solve).solutions.length = 0 ∧
    (cexBoard.solve).deadEnds = 1 := by
  refine ⟨by decide, by decide, by decide, by decide⟩

set_option maxHeartbeats 1000000

lemma table_nonzero : ∀ (ty : PieceType) (co : Color), ∀ m ∈ moveOptionsFor ty co,
    ¬(m.directionX = 0 ∧ m.directionY = 0) := by
  intro ty co
  cases ty <;> cases co <;> decide

lemma table_nodup : ∀ (ty : PieceType) (co : Color),
    (moveOptionsFor ty co).Nodup := by
  intro ty co
  cases ty <;> cases co <;> decide

lemma table_mult_inj : ∀ (ty : PieceType) (co : Color),
    ∀ m1 ∈ moveOptionsFor ty co, ∀ m2 ∈ moveOptionsFor ty co,
    ∀ j k : Fin 8, 1 ≤ j.val → 1 ≤ k.val →
    ((j.val : Int) * m1.directionX = (k.val : Int) * m2.directionX) →
    ((j.val : Int) * m1.directionY = (k.val : Int) * m2.directionY) →
    m1 = m2 ∧ j.val = k.val := by
  intro ty co
  cases ty <;> cases co <;> decide

lemma flatMap_congr_mem {α β : Type} {T : List α} {f g : α → List β}
    (h : ∀ x ∈ T, f x = g x) : T.flatMap f = T.flatMap g := by
  induction T with
  | nil => rfl
  | cons a T ih =>
    rw [List.flatMap_cons, List.flatMap_cons, h a (List.mem_cons_self a T),
      ih (fun x hx => h x (List.mem_cons_of_mem a hx))]

lemma flatMap_if_single {α β : Type} [DecidableEq α] {T : List α} {m : α}
    {cap : β} (hnd : T.Nodup) (hm : m ∈ T) :
    T.flatMap (fun x => if x = m then [cap] else []) = [cap] := by
  induction T with
  | nil => cases hm
  | cons a T ih =>
    rw [List.flatMap_cons]
    by_cases ha : a = m
    · subst ha
      rw [if_pos rfl]
      have hnil : T.flatMap (fun x => if x = a then [cap] else []) = [] := by
        rw [List.flatMap_eq_nil_iff]
        intro x hx
        refine if_neg (fun h => ?_)
        subst h
        exact (List.nodup_cons.mp hnd).1 hx
      rw [hnil, List.append_nil]
    · rw [if_neg ha, List.nil_append]
      have hm' : m ∈ T := by
        cases List.mem_cons.mp hm with
        | inl h => exact absurd h.symm ha
        | inr h => exact h
      exact ih (List.nodup_cons.mp hnd).2 hm'

/-- C4 (amended): for every board of exactly two pieces of opposite colors
in which the WHITE piece's move table includes a direction (with some step
count, for slides) landing exactly on the black piece's square, the search
with White to move finds exactly one solution and no dead end, and the
solution is the single capture pairing the two pieces.  (As stated the
claim is false when only the black piece attacks, see the counterexample.) -/
theorem c4_two_piece_white_attacker (w bp : Piece) (b : Board)
    (hw : w.color = Color.White) (hb : bp.color = Color.Black)
    (hpieces : b.pieces = [w, bp] ∨ b.pieces = [bp, w])
    (hv : validLabel w.position = true)
    (hmove : ∃ m ∈ w.moveOptions, ∃ k : Nat, 1 ≤ k ∧ k ≤ 7 ∧
      (m.type = MoveType.Jump → k = 1) ∧
      calculatePosition w.position m (k : Int) = some bp.position) :
    b.solve = ⟨[[⟨w, bp⟩]], 0⟩ := by
  obtain ⟨m, hm, k, hk1, hk7, hkj, hcalc⟩ := hmove
  obtain ⟨hX1, hX8, hY1, hY8⟩ := decode_bounds hv
  obtain ⟨hbp_eq, hrx1, hrx8, hry1, hry8⟩ := calculatePosition_eq_some hcalc
  have hwenc : encodeLabel (decodeX w.position) (decodeY w.position) = w.position :=
    encode_decode hv
  have hkz : (0 : Int) < (k : Int) := by exact_mod_cast hk1
  have hne : w.position ≠ bp.position := by
    intro heq
    have heq' := hwenc.trans (heq.trans hbp_eq)
    obtain ⟨hx, hy⟩ := encodeLabel_inj hX1 hX8 hY1 hY8 hrx1 hrx8 hry1 hry8 heq'
    have hnz := table_nonzero w.type w.color m hm
    refine hnz ⟨?_, ?_⟩
    · have hz : (k : Int) * m.directionX = 0 := by omega
      rcases mul_eq_zero.mp hz with h | h
      · omega
      · exact h
    · have hz : (k : Int) * m.directionY = 0 := by omega
      rcases mul_eq_zero.mp hz with h | h
      · omega
      · exact h
  have hsq : ∀ m' ∈ w.moveOptions, ∀ j : Nat, 1 ≤ j → j ≤ 7 → ∀ q : Pos,
      calculatePosition w.position m' (j : Int) = some q →
      q ≠ w.position ∧ (q = bp.position → (m' = m ∧ j = k)) := by
    intro m' hm' j hj1 hj7 q hq
    obtain ⟨hq_eq, hjx1, hjx8, hjy1, hjy8⟩ := calculatePosition_eq_some hq
    have hjz : (0 : Int) < (j : Int) := by exact_mod_cast hj1
    constructor
    · intro heq
      have heq' := (hq_eq.symm.trans heq).trans hwenc.symm
      obtain ⟨hx, hy⟩ := encodeLabel_inj hjx1 hjx8 hjy1 hjy8 hX1 hX8 hY1 hY8 heq'
      have hnz := table_nonzero w.type w.color m' hm'
      refine hnz ⟨?_, ?_⟩
      · have hz : (j : Int) * m'.directionX = 0 := by omega
        rcases mul_eq_zero.mp hz with h | h
        · omega
        · exact h
      · have hz : (j : Int) * m'.directionY = 0 := by omega
        rcases mul_eq_zero.mp hz with h | h
        · omega
        · exact h
    · intro heq
      have heq' := (hq_eq.symm.trans heq).trans hbp_eq
      obtain ⟨hx, hy⟩ :=
        encodeLabel_inj hjx1 hjx8 hjy1 hjy8 hrx1 hrx8 hry1 hry8 heq'
      have e1 : (j : Int) * m'.directionX = (k : Int) * m.directionX := by omega
      have e2 : (j : Int) * m'.directionY = (k : Int) * m.directionY := by omega
      have hfin := table_mult_inj w.type w.color m' hm' m hm
        ⟨j, by omega⟩ ⟨k, by omega⟩ hj1 hk1 e1 e2
      exact hfin
  have hfp : ∀ q : Pos, b.findPiece q =
      if q = bp.position then some bp
      else if q = w.position then some w else none := by
    intro q
    by_cases h1 : q = bp.position
    · by_cases h2 : q = w.position
      · exact absurd (h2.symm.trans h1) hne
      · rcases hpieces with hp | hp <;> rw [Board.findPiece, hp] <;>
          simp only [List.foldl_cons, List.foldl_nil]
        · rw [if_pos h1.symm, if_pos h1]
        · rw [if_neg (fun hh => h2 hh.symm), if_pos h1.symm, if_pos h1]
    · by_cases h2 : q = w.position
      · rcases hpieces with hp | hp <;> rw [Board.findPiece, hp] <;>
          simp only [List.foldl_cons, List.foldl_nil]
        · rw [if_neg (fun hh => h1 hh.symm), if_pos h2.symm, if_neg h1,
            if_pos h2]
        · rw [if_pos h2.symm, if_neg h1, if_pos h2]
      · rcases hpieces with hp | hp <;> rw [Board.findPiece, hp] <;>
          simp only [List.foldl_cons, List.foldl_nil]
        · rw [if_neg (fun hh => h1 hh.symm), if_neg (fun hh => h2 hh.symm),
            if_neg h1, if_neg h2]
        · rw [if_neg (fun hh => h2 hh.symm), if_neg (fun hh => h1 hh.symm),
            if_neg h1, if_neg h2]
  have hcolors : bp.color ≠ w.color := by
    rw [hw, hb]
    decide
  have hcap : ∀ m' ∈ w.moveOptions,
      capturesForMove b w m' = if m' = m then [⟨w, bp⟩] else [] := by
    intro m' hm'
    rcases hty' : m'.type with _ | _
    · by_cases hmm : m' = m
      · subst hmm
        have hk1' : k = 1 := hkj hty'
        subst hk1'
        have hcalc1 : calculatePosition w.position m' (1 : Int)
            = some bp.position := by
          rw [← Nat.cast_one]
          exact hcalc
        rw [capturesForMove_jump_occupied hty' hcalc1
          (by rw [hfp, if_pos rfl]), if_pos hcolors, if_pos rfl]
      · rw [if_neg hmm]
        rcases hc : calculatePosition w.position m' (1 : Int) with _ | q
        · exact capturesForMove_jump_offboard hty' hc
        · have hc' : calculatePosition w.position m' ((1 : Nat) : Int) = some q := by
            rw [Nat.cast_one]
            exact hc
          have hsq' := hsq m' hm' 1 le_rfl (by omega) q hc'
          have hqb : q ≠ bp.position := fun h => hmm (hsq'.2 h).1
          exact capturesForMove_jump_empty hty' hc
            (by rw [hfp, if_neg hqb, if_neg hsq'.1])
    · rw [capturesForMove_slide hty']
      by_cases hmm : m' = m
      · subst hmm
        rw [if_pos rfl]
        have hhit : hitAt b w.position m' k = some bp := by
          rw [hitAt, hcalc, Option.some_bind, hfp, if_pos rfl]
        have hmin : ∀ j : Nat, 1 ≤ j → j < k →
            hitAt b w.position m' j = none := by
          intro j hj1 hjk
          rw [hitAt]
          rcases hc : calculatePosition w.position m' (j : Int) with _ | q
          · rw [Option.none_bind]
          · rw [Option.some_bind]
            have hsq' := hsq m' hm' j hj1 (by omega) q hc
            have hqb : q ≠ bp.position := fun h => by
              have := (hsq'.2 h).2
              omega
            rw [hfp, if_neg hqb, if_neg hsq'.1]
        rw [slideFrom_hit b w m' bp 7 1 k hk1 (by omega) hhit hmin,
          if_pos hcolors]
      · rw [if_neg hmm]
        apply slideFrom_of_no_hit b w m' 7 1
        intro j hj1 hj8
        rw [hitAt]
        rcases hc : calculatePosition w.position m' (j : Int) with _ | q
        · rw [Option.none_bind]
        · rw [Option.some_bind]
          have hsq' := hsq m' hm' j hj1 (by omega) q hc
          have hqb : q ≠ bp.position := fun h => hmm (hsq'.2 h).1
          rw [hfp, if_neg hqb, if_neg hsq'.1]
  have hgp : w.getPossibleCaptures b = [⟨w, bp⟩] := by
    rw [Piece.getPossibleCaptures, flatMap_congr_mem hcap]
    exact flatMap_if_single (table_nodup w.type w.color) hm
  have hlc : legalCaptures b Color.White = [(⟨w, bp⟩ : Capture)] := by
    rw [legalCaptures]
    have hfilter : b.pieces.filter (fun p => decide (p.color = Color.White))
        = [w] := by
      rcases hpieces with hp | hp <;> rw [hp] <;>
        simp [List.filter_cons, hw, hb]
    rw [hfilter, List.flatMap_cons]
    simp [hgp]
  have hlen2 : b.pieces.length = 2 := by
    rcases hpieces with hp | hp <;> rw [hp] <;> rfl
  have happ : (b.clone).applyCapture ⟨w, bp⟩
      = (⟨[⟨w.type, w.color, bp.position⟩]⟩, true) := by
    rw [clone_eq]
    have hrem : removeFirstAt b.pieces bp.position = [w] := by
      rcases hpieces with hp | hp <;> rw [hp]
      · rw [removeFirstAt, if_neg hne, removeFirstAt, if_pos rfl]
      · rw [removeFirstAt, if_pos rfl]
    simp only [Board.applyCapture, hrem, hlen2]
    rw [List.map_cons, List.map_nil, if_pos rfl]
    simp
  rw [Board.solve, hlen2, solveRecursive_succ,
    if_neg (by omega : ¬ b.pieces.length = 1), hlc]
  have hchild : childResult 2 b [] Color.White ⟨w, bp⟩ = ⟨[[⟨w, bp⟩]], 0⟩ := by
    rw [childResult, happ]
    simp only [if_pos]
    rw [show ((2 : Nat) = 1 + 1) from rfl, solveRecursive_succ]
    rw [if_pos (by rfl : (Board.mk [⟨w.type, w.color, bp.position⟩]).pieces.length = 1)]
    rw [List.nil_append]
  rw [List.map_cons, List.map_nil, hchild]
  simp

/-- Witness for the amended C4: white king a1 captures the black pawn a2. -/
theorem c4_two_piece_white_attacker_witness :
    kingBoard.solve
      = ⟨[[⟨⟨PieceType.King, Color.White, ['a', '1']⟩,
           ⟨PieceType.Pawn, Color.Black, ['a', '2']⟩⟩]], 0⟩ :=
  c4_two_piece_white_attacker
    ⟨PieceType.King, Color.White, ['a', '1']⟩
    ⟨PieceType.Pawn, Color.Black, ['a', '2']⟩
    kingBoard rfl rfl (Or.inl rfl) (by decide)
    ⟨⟨0, 1, MoveType.Jump⟩, by decide, 1, le_rfl, by omega, fun _ => rfl,
      by decide⟩

end ChessMelee
